import Mathlib

/-!
Shallow embedding of the in-memory `CacheService` (TTL + LRU cache) found in
`src/utils/logger.js` of the mock-OTT-API-Claro repository, together with
theorems settling the frozen claims about it.

Modelling conventions:
* JavaScript values passed to the cache are modelled by the inductive `Value`.
  The exotic case of a value whose size estimation throws (e.g. an object with
  a throwing getter) is modelled by the constructor `Value.throwing`;
  `calculateSize` returns `none` exactly when the walk raises.
* `Date.now()` is modelled by an explicit `now : Nat` argument to every
  operation that consults the clock.
* The JS `Map` (key index) and the doubly linked recency list are kept in
  lock-step by the source, so both are modelled by a single `List Node` in
  recency order (head = most recently used, last = least recently used).
* JS numbers used for byte counting are modelled by `Int` (`currentSize` may
  transiently be compared against any `maxSize`, including values smaller
  than zero); individual entry sizes are `Nat` since the structural walk only
  produces non-negative numbers.
* The eviction observer is modelled by a predicate `cb : String → Value → Bool`
  telling whether the callback throws on a given (key, value); the source
  wraps each invocation in try/catch, which is embedded by `catchLog`.
* Logging has no observable effect on cache state and is not modelled.
-/

mutual

/-- JavaScript values cacheable by the service. `throwing` stands for a value
whose size estimation raises (e.g. a poisoned getter); all other constructors
mirror the branches of `Node._calculateSize`. -/
inductive Value where
  | nullV : Value
  | undef : Value
  | boolV (b : Bool) : Value
  | numV (n : Int) : Value
  | strV (s : String) : Value
  | dateV (t : Int) : Value
  | arrV (items : ValueList) : Value
  | objV (props : PropList) : Value
  | throwing : Value

/-- A JS array of values. -/
inductive ValueList where
  | nil : ValueList
  | cons (head : Value) (tail : ValueList) : ValueList

/-- The own enumerable properties of a JS object. -/
inductive PropList where
  | nil : PropList
  | cons (key : String) (head : Value) (tail : PropList) : PropList

end

/-- JS strict comparison `value !== undefined` used by `getMany`. -/
def Value.isUndef : Value → Bool
  | .undef => true
  | _ => false

mutual

/-- `Node._calculateSize`: booleans cost 4, numbers 8, strings 2 bytes per
character, dates 8, arrays the sum of their items, objects the sum of
`2 * key.length + size value` over their properties, null/undefined 0.
Returns `none` when the walk throws. -/
def calculateSize : Value → Option Nat
  | .nullV => some 0
  | .undef => some 0
  | .boolV _ => some 4
  | .numV _ => some 8
  | .strV s => some (2 * s.length)
  | .dateV _ => some 8
  | .arrV items => sizeOfItems items
  | .objV props => sizeOfProps props
  | .throwing => none

/-- The `reduce` over an array inside `_calculateSize`. -/
def sizeOfItems : ValueList → Option Nat
  | .nil => some 0
  | .cons v rest =>
    match calculateSize v, sizeOfItems rest with
    | some a, some b => some (a + b)
    | _, _ => none

/-- The `reduce` over `Object.entries` inside `_calculateSize`. -/
def sizeOfProps : PropList → Option Nat
  | .nil => some 0
  | .cons k v rest =>
    match calculateSize v, sizeOfProps rest with
    | some a, some b => some (2 * k.length + a + b)
    | _, _ => none

end

/-- An entry of the cache: the `Node` class (the prev/next links are
represented by the node's position in the recency list). -/
structure Node where
  key : String
  value : Value
  ttl : Nat
  expiry : Nat
  size : Nat

/-- A freshly constructed node with its size already computed:
`expiry = now + ttl` when `ttl > 0`, else `0`. -/
def newNode (now : Nat) (key : String) (value : Value) (ttl : Nat) (sz : Nat) : Node :=
  { key := key, value := value, ttl := ttl,
    expiry := if 0 < ttl then now + ttl else 0, size := sz }

/-- The `Node` constructor: returns `none` when `_calculateSize` throws. -/
def mkNode (now : Nat) (key : String) (value : Value) (ttl : Nat) : Option Node :=
  match calculateSize value with
  | none => none
  | some sz => some (newNode now key value ttl sz)

/-- `Node.isExpired`: `ttl > 0 && Date.now() > expiry`. -/
def isExpired (now : Nat) (n : Node) : Bool :=
  decide (0 < n.ttl) && decide (n.expiry < now)

/-- The `stats` record of the cache. -/
structure Stats where
  hits : Nat
  misses : Nat
  sets : Nat
  deletes : Nat
  evictions : Nat
  expirations : Nat

/-- The state of a `CacheService` instance. `list` is the recency list
(head = most recently used); the key index (`this.cache`) holds exactly the
nodes of the list. -/
structure CacheService where
  maxSize : Int
  defaultTTL : Nat
  list : List Node
  currentSize : Int
  stats : Stats

/-- The constructor with its options already resolved; the prune timer is an
external scheduler repeatedly calling `prune` and is not part of the state. -/
def CacheService.init (maxSize : Int) (defaultTTL : Nat) : CacheService :=
  { maxSize := maxSize, defaultTTL := defaultTTL, list := [], currentSize := 0,
    stats := { hits := 0, misses := 0, sets := 0, deletes := 0,
               evictions := 0, expirations := 0 } }

/-- `this.cache.get(key)` — lookup in the key index. -/
def CacheService.findNode (c : CacheService) (k : String) : Option Node :=
  c.list.find? (fun n => n.key == k)

/-- Unlinking the node stored under `k` from the recency list
(`_removeNode` on the node found in the key index). -/
def removeKey : List Node → String → List Node
  | [], _ => []
  | n :: rest, k => if n.key == k then rest else n :: removeKey rest k

/-- `keys()`: the keys of the key index. -/
def CacheService.keys (c : CacheService) : List String :=
  c.list.map (fun n => n.key)

/-- `delete(key)`: false if absent; otherwise unlink, remove from the index,
decrease `currentSize`, increment `deletes`. -/
def CacheService.delete (c : CacheService) (k : String) : CacheService × Bool :=
  match c.findNode k with
  | none => (c, false)
  | some n =>
    ({ c with list := removeKey c.list k,
              currentSize := c.currentSize - (n.size : Int),
              stats := { c.stats with deletes := c.stats.deletes + 1 } }, true)

/-- Result of the eviction loop `_evictEntries`, acting on the reversed
recency list (least recently used first). `trace` records the observer
invocations, in order. -/
structure EvictOut where
  size : Int
  remaining : List Node
  trace : List (String × Value)

/-- `_evictEntries` without an observer registered: while
`currentSize > maxSize` and the list is non-empty, drop the tail entry and
decrease the size. Acts on the reversed recency list. -/
def evictFrom (maxSize : Int) (size : Int) : List Node → EvictOut
  | [] => { size := size, remaining := [], trace := [] }
  | n :: rest =>
    if maxSize < size then
      let out := evictFrom maxSize (size - (n.size : Int)) rest
      { out with trace := (n.key, n.value) :: out.trace }
    else
      { size := size, remaining := n :: rest, trace := [] }

/-- Outcome of one observer invocation: `thrown` when the callback raises. -/
inductive CbResult where
  | ok : CbResult
  | thrown : CbResult

/-- `this.evictionCallback(node.key, node.value)` for an observer modelled by
the predicate `cb` telling on which (key, value) it throws. -/
def invokeCallback (cb : String → Value → Bool) (k : String) (v : Value) : CbResult :=
  if cb k v then CbResult.thrown else CbResult.ok

/-- The `try { ... } catch (error) { logger.error(...) }` around the observer
invocation: both outcomes fall through to the next loop iteration. -/
def catchLog : CbResult → Unit
  | CbResult.ok => ()
  | CbResult.thrown => ()

/-- `_evictEntries` with an observer registered: each removed entry triggers
one invocation, wrapped in try/catch inside the loop body. -/
def evictFromCb (cb : String → Value → Bool) (maxSize : Int) (size : Int) :
    List Node → EvictOut
  | [] => { size := size, remaining := [], trace := [] }
  | n :: rest =>
    if maxSize < size then
      let _ := catchLog (invokeCallback cb n.key n.value)
      let out := evictFromCb cb maxSize (size - (n.size : Int)) rest
      { out with trace := (n.key, n.value) :: out.trace }
    else
      { size := size, remaining := n :: rest, trace := [] }

/-- `_evictEntries` lifted to the cache state: evicts from the tail of the
recency list, incrementing `evictions` once per removed entry. -/
def CacheService.evictEntries (c : CacheService) : CacheService × List (String × Value) :=
  let out := evictFrom c.maxSize c.currentSize c.list.reverse
  ({ c with list := out.remaining.reverse,
            currentSize := out.size,
            stats := { c.stats with evictions := c.stats.evictions + out.trace.length } },
   out.trace)

/-- The opening of `set`: `if (this.cache.has(key)) this.delete(key)`. -/
def condDelete (c : CacheService) (k : String) : CacheService :=
  if (c.findNode k).isSome then (c.delete k).1 else c

/-- Linking a freshly built node at the front of the recency list and into the
key index, adding its size and counting the `set`. -/
def insertNode (c : CacheService) (n : Node) : CacheService :=
  { c with list := n :: c.list,
           currentSize := c.currentSize + (n.size : Int),
           stats := { c.stats with sets := c.stats.sets + 1 } }

/-- `set(key, value, ttl)`: delete any existing entry for the key, construct
a new node (this is where a poisoned value throws — note the delete has
already happened), link it at the front, add its size, increment `sets`, and
run the eviction loop when over capacity. The catch block returns false. -/
def CacheService.set (c : CacheService) (now : Nat) (k : String) (v : Value)
    (ttl : Nat) : CacheService × Bool :=
  let c1 := condDelete c k
  match mkNode now k v ttl with
  | none => (c1, false)
  | some n =>
    let c2 := insertNode c1 n
    if c2.maxSize < c2.currentSize then ((c2.evictEntries).1, true) else (c2, true)

/-- `get(key)`: miss on unknown key; on an expired key delete it and count an
expiration and a miss; otherwise move the node to the front and count a hit.
A miss returns JS `undefined`, i.e. `Value.undef`. -/
def CacheService.get (c : CacheService) (now : Nat) (k : String) : CacheService × Value :=
  match c.findNode k with
  | none =>
    ({ c with stats := { c.stats with misses := c.stats.misses + 1 } }, Value.undef)
  | some n =>
    if isExpired now n then
      let c1 := (c.delete k).1
      ({ c1 with stats := { c1.stats with
            expirations := c1.stats.expirations + 1,
            misses := c1.stats.misses + 1 } }, Value.undef)
    else
      ({ c with list := n :: removeKey c.list k,
                stats := { c.stats with hits := c.stats.hits + 1 } }, n.value)

/-- `has(key)`: false on unknown key; deletes an expired entry and returns
false; otherwise true. No recency move, no hit/miss counting. -/
def CacheService.has (c : CacheService) (now : Nat) (k : String) : CacheService × Bool :=
  match c.findNode k with
  | none => (c, false)
  | some n =>
    if isExpired now n then ((c.delete k).1, false) else (c, true)

/-- `clear()`: drop all entries and reset `currentSize`; stats are kept. -/
def CacheService.clear (c : CacheService) : CacheService :=
  { c with list := [], currentSize := 0 }

/-- The record returned by `getStats()` (`usagePercentage`, a float, is not
modelled). -/
structure StatsOut where
  size : Nat
  currentSize : Int
  maxSize : Int
  hits : Nat
  misses : Nat
  sets : Nat
  deletes : Nat
  evictions : Nat
  expirations : Nat

/-- `getStats()`. -/
def CacheService.getStats (c : CacheService) : StatsOut :=
  { size := c.list.length, currentSize := c.currentSize, maxSize := c.maxSize,
    hits := c.stats.hits, misses := c.stats.misses, sets := c.stats.sets,
    deletes := c.stats.deletes, evictions := c.stats.evictions,
    expirations := c.stats.expirations }

/-- `setMany(entries, ttl)`: `Object.entries(entries).forEach` calling `set`
on each pair, ignoring each individual return value, then `return true`.
(The catch block is unreachable for an already-materialised entry list, since
`set` catches its own exceptions.) -/
def CacheService.setMany (c : CacheService) (now : Nat)
    (entries : List (String × Value)) (ttl : Nat) : CacheService × Bool :=
  (entries.foldl (fun acc kv => (acc.set now kv.1 kv.2 ttl).1) c, true)

/-- One iteration of `getMany`: a `get`, recording the pair when the value is
not `undefined`. -/
def getManyStep (now : Nat) (acc : CacheService × List (String × Value))
    (k : String) : CacheService × List (String × Value) :=
  let r := acc.1.get now k
  (r.1, if r.2.isUndef then acc.2 else acc.2 ++ [(k, r.2)])

/-- `getMany(keys)`. -/
def CacheService.getMany (c : CacheService) (now : Nat) (ks : List String) :
    CacheService × List (String × Value) :=
  ks.foldl (getManyStep now) (c, [])

/-- One iteration of `deleteMany`: count the keys whose `delete` returned
true. -/
def deleteManyStep (acc : CacheService × Nat) (k : String) : CacheService × Nat :=
  let r := acc.1.delete k
  (r.1, acc.2 + if r.2 then 1 else 0)

/-- `deleteMany(keys)`. -/
def CacheService.deleteMany (c : CacheService) (ks : List String) : CacheService × Nat :=
  ks.foldl deleteManyStep (c, 0)

/-- One iteration of the `values()` scan: push a live value, lazily delete an
expired entry. -/
def valuesStep (now : Nat) (acc : CacheService × List Value) (n : Node) :
    CacheService × List Value :=
  if isExpired now n then ((acc.1.delete n.key).1, acc.2)
  else (acc.1, acc.2 ++ [n.value])

/-- `values()`: scans a snapshot of the key index. -/
def CacheService.values (c : CacheService) (now : Nat) : CacheService × List Value :=
  c.list.foldl (valuesStep now) (c, [])

/-- One iteration of the `entries()` scan. -/
def entriesStep (now : Nat) (acc : CacheService × List (String × Value))
    (n : Node) : CacheService × List (String × Value) :=
  if isExpired now n then ((acc.1.delete n.key).1, acc.2)
  else (acc.1, acc.2 ++ [(n.key, n.value)])

/-- `entries()`: scans a snapshot of the key index. -/
def CacheService.entries (c : CacheService) (now : Nat) :
    CacheService × List (String × Value) :=
  c.list.foldl (entriesStep now) (c, [])

/-- One iteration of `prune()`: the expiry condition `ttl > 0 && now > expiry`
is checked on the snapshot node; a match is deleted, counted, and
`expirations` is incremented. -/
def pruneStep (now : Nat) (acc : CacheService × Nat) (n : Node) : CacheService × Nat :=
  if isExpired now n then
    let r := (acc.1.delete n.key).1
    ({ r with stats := { r.stats with expirations := r.stats.expirations + 1 } },
     acc.2 + 1)
  else acc

/-- `prune()`: active sweep over a snapshot of the key index. -/
def CacheService.prune (c : CacheService) (now : Nat) : CacheService × Nat :=
  c.list.foldl (pruneStep now) (c, 0)

/-- `setMaxSize(size)`: update the capacity and run the eviction loop when
the current size now exceeds it. -/
def CacheService.setMaxSize (c : CacheService) (m : Int) : CacheService :=
  let c1 := { c with maxSize := m }
  if c1.maxSize < c1.currentSize then (c1.evictEntries).1 else c1

/-- `setDefaultTTL(ttl)`. -/
def CacheService.setDefaultTTL (c : CacheService) (t : Nat) : CacheService :=
  { c with defaultTTL := t }

/-- One iteration of `deletePattern`: a matching key is deleted and counted
(the count does not consult `delete`'s return value). -/
def deletePatternStep (p : String → Bool) (acc : CacheService × Nat)
    (k : String) : CacheService × Nat :=
  if p k then ((acc.1.delete k).1, acc.2 + 1) else acc

/-- `deletePattern(pattern)`: the regular expression is modelled by the
predicate `p`; scans a snapshot of the keys. -/
def CacheService.deletePattern (c : CacheService) (p : String → Bool) :
    CacheService × Nat :=
  (c.list.map (fun n => n.key)).foldl (deletePatternStep p) (c, 0)

/-- A public operation of the cache, for stating properties of arbitrary
operation sequences. A `none` TTL means the argument was omitted and the
default applies. -/
inductive Op where
  | opSet (k : String) (v : Value) (ttl : Option Nat) : Op
  | opGet (k : String) : Op
  | opHas (k : String) : Op
  | opDelete (k : String) : Op
  | opClear : Op
  | opSetMany (entries : List (String × Value)) (ttl : Option Nat) : Op
  | opGetMany (ks : List String) : Op
  | opDeleteMany (ks : List String) : Op
  | opValues : Op
  | opEntries : Op
  | opPrune : Op
  | opSetMaxSize (m : Int) : Op
  | opSetDefaultTTL (t : Nat) : Op
  | opDeletePattern (p : String → Bool) : Op

/-- State effect of one public operation issued at time `now`. -/
def applyOp (c : CacheService) (now : Nat) : Op → CacheService
  | .opSet k v ttl => (c.set now k v (ttl.getD c.defaultTTL)).1
  | .opGet k => (c.get now k).1
  | .opHas k => (c.has now k).1
  | .opDelete k => (c.delete k).1
  | .opClear => c.clear
  | .opSetMany entries ttl => (c.setMany now entries (ttl.getD c.defaultTTL)).1
  | .opGetMany ks => (c.getMany now ks).1
  | .opDeleteMany ks => (c.deleteMany ks).1
  | .opValues => (c.values now).1
  | .opEntries => (c.entries now).1
  | .opPrune => (c.prune now).1
  | .opSetMaxSize m => c.setMaxSize m
  | .opSetDefaultTTL t => c.setDefaultTTL t
  | .opDeletePattern p => (c.deletePattern p).1

/-- A sequence of public operations, each with its issue time. -/
def applyOps (c : CacheService) (ops : List (Nat × Op)) : CacheService :=
  ops.foldl (fun s o => applyOp s o.1 o.2) c

/-- Sum of the approximate sizes of a list of nodes. -/
def sumSizes (l : List Node) : Int :=
  (l.map (fun n => (n.size : Int))).sum

/-- The size of the entry currently stored under `k` (0 when absent). -/
def sizeOfKey (c : CacheService) (k : String) : Int :=
  match c.findNode k with
  | some n => (n.size : Int)
  | none => 0

/-- Capacity bound restored after eviction: within budget or empty. -/
def capBound (c : CacheService) : Prop :=
  c.currentSize ≤ c.maxSize ∨ c.list = []

/-- Internal well-formedness: distinct keys and an exact size counter. -/
def CacheWF (c : CacheService) : Prop :=
  c.keys.Nodup ∧ c.currentSize = sumSizes c.list

/-! ### Basic lemmas about sizes, lookup and unlinking -/

theorem sumSizes_cons (n : Node) (l : List Node) :
    sumSizes (n :: l) = (n.size : Int) + sumSizes l := by
  simp [sumSizes]

theorem sumSizes_append (l1 l2 : List Node) :
    sumSizes (l1 ++ l2) = sumSizes l1 + sumSizes l2 := by
  simp [sumSizes]

theorem sumSizes_reverse (l : List Node) : sumSizes l.reverse = sumSizes l := by
  simp [sumSizes, List.sum_reverse]

theorem removeKey_of_find_none {l : List Node} {k : String}
    (h : l.find? (fun n => n.key == k) = none) : removeKey l k = l := by
  induction l with
  | nil => rfl
  | cons n rest ih =>
    cases hk : (n.key == k) with
    | true => simp [List.find?, hk] at h
    | false =>
      simp only [List.find?, hk] at h
      simp [removeKey, hk, ih h]

theorem sumSizes_removeKey {l : List Node} {k : String} {n : Node}
    (h : l.find? (fun m => m.key == k) = some n) :
    sumSizes (removeKey l k) = sumSizes l - (n.size : Int) := by
  induction l with
  | nil => simp at h
  | cons m rest ih =>
    cases hk : (m.key == k) with
    | true =>
      simp only [List.find?, hk, Option.some.injEq] at h
      subst h
      simp [removeKey, hk, sumSizes_cons]
    | false =>
      simp only [List.find?, hk] at h
      simp [removeKey, hk, sumSizes_cons, ih h]
      ring

theorem removeKey_sublist (l : List Node) (k : String) : (removeKey l k).Sublist l := by
  induction l with
  | nil => exact List.Sublist.refl _
  | cons n rest ih =>
    by_cases hk : (n.key == k) = true
    · simp only [removeKey, hk, if_pos]
      exact List.Sublist.cons n (List.Sublist.refl rest)
    · simpa [removeKey, hk] using List.Sublist.cons₂ n ih

theorem keysNodup_removeKey {l : List Node} {k : String}
    (h : (l.map (fun n => n.key)).Nodup) :
    ((removeKey l k).map (fun n => n.key)).Nodup :=
  h.sublist ((removeKey_sublist l k).map _)

theorem not_mem_keys_removeKey {l : List Node} {k : String}
    (h : (l.map (fun n => n.key)).Nodup) :
    k ∉ (removeKey l k).map (fun n => n.key) := by
  induction l with
  | nil => simp [removeKey]
  | cons n rest ih =>
    rw [List.map_cons, List.nodup_cons] at h
    by_cases hk : (n.key == k) = true
    · have hke : n.key = k := by simpa using hk
      simp only [removeKey, hk, if_pos]
      intro hm
      exact h.1 (hke ▸ hm)
    · simp only [removeKey, hk, if_neg, List.map_cons, List.mem_cons, Bool.false_eq_true,
        not_false_eq_true]
      intro hor
      rcases hor with he | hm
      · exact hk (by simp [he])
      · exact ih h.2 hm

theorem find_key_none {l : List Node} {k : String} :
    l.find? (fun n => n.key == k) = none ↔ k ∉ l.map (fun n => n.key) := by
  simp [List.find?_eq_none, List.mem_map]

theorem find_key_self {l : List Node} {n : Node}
    (hd : (l.map (fun m => m.key)).Nodup) (hn : n ∈ l) :
    l.find? (fun m => m.key == n.key) = some n := by
  induction l with
  | nil => simp at hn
  | cons a rest ih =>
    rw [List.map_cons, List.nodup_cons] at hd
    rcases List.mem_cons.mp hn with rfl | hmem
    · have hp : (n.key == n.key) = true := by simp
      simp [List.find?, hp]
    · have hne : (a.key == n.key) = false := by
        simp only [beq_eq_false_iff_ne, ne_eq]
        intro he
        exact hd.1 (he ▸ List.mem_map.mpr ⟨n, hmem, rfl⟩)
      simp only [List.find?, hne]
      exact ih hd.2 hmem

/-! ### Well-formedness preservation: delete and the eviction loop -/

theorem WF_delete {c : CacheService} (h : CacheWF c) (k : String) :
    CacheWF (c.delete k).1 := by
  unfold CacheService.delete
  cases hf : c.findNode k with
  | none => exact h
  | some n =>
    have hf2 : c.list.find? (fun m => m.key == k) = some n := hf
    refine ⟨keysNodup_removeKey h.1, ?_⟩
    show c.currentSize - (n.size : Int) = sumSizes (removeKey c.list k)
    rw [sumSizes_removeKey hf2, h.2]

theorem delete_findNode_self {c : CacheService} (h : c.keys.Nodup) (k : String) :
    ((c.delete k).1).findNode k = none := by
  unfold CacheService.delete
  cases hf : c.findNode k with
  | none => exact hf
  | some n =>
    show List.find? (fun m => m.key == k) (removeKey c.list k) = none
    exact find_key_none.mpr (not_mem_keys_removeKey h)

theorem evictFrom_spec (m : Int) (s : Int) (l : List Node) :
    ∃ dropped, l = dropped ++ (evictFrom m s l).remaining ∧
      (evictFrom m s l).size = s - sumSizes dropped ∧
      (evictFrom m s l).trace = dropped.map (fun n => (n.key, n.value)) := by
  induction l generalizing s with
  | nil => exact ⟨[], by simp [evictFrom, sumSizes]⟩
  | cons n rest ih =>
    by_cases hm : m < s
    · obtain ⟨dropped, h1, h2, h3⟩ := ih (s - (n.size : Int))
      refine ⟨n :: dropped, ?_, ?_, ?_⟩
      · simpa [evictFrom, hm] using h1
      · simp only [evictFrom, hm, if_pos, sumSizes_cons]
        rw [h2]
        ring
      · simp [evictFrom, hm, h3]
    · exact ⟨[], by simp [evictFrom, hm, sumSizes]⟩

theorem evictFrom_post (m : Int) (s : Int) (l : List Node) :
    (evictFrom m s l).size ≤ m ∨ (evictFrom m s l).remaining = [] := by
  induction l generalizing s with
  | nil => right; rfl
  | cons n rest ih =>
    by_cases hm : m < s
    · simpa [evictFrom, hm] using ih (s - (n.size : Int))
    · left
      simp only [evictFrom]
      rw [if_neg hm]
      show s ≤ m
      omega

theorem evictFromCb_eq (cb : String → Value → Bool) (m : Int) (s : Int)
    (l : List Node) : evictFromCb cb m s l = evictFrom m s l := by
  induction l generalizing s with
  | nil => rfl
  | cons n rest ih =>
    by_cases hm : m < s
    · simp [evictFromCb, evictFrom, hm, ih]
    · simp [evictFromCb, evictFrom, hm]

theorem WF_evictEntries {c : CacheService} (h : CacheWF c) :
    CacheWF (c.evictEntries).1 := by
  obtain ⟨dropped, h1, h2, h3⟩ := evictFrom_spec c.maxSize c.currentSize c.list.reverse
  have hrev : (c.list.reverse.map (fun n => n.key)).Nodup := by
    rw [List.map_reverse, List.nodup_reverse]
    exact h.1
  have hsub : (evictFrom c.maxSize c.currentSize c.list.reverse).remaining.Sublist
      c.list.reverse := by
    nth_rewrite 2 [h1]
    exact List.sublist_append_right _ _
  constructor
  · show (((evictFrom c.maxSize c.currentSize c.list.reverse).remaining.reverse).map
      (fun n => n.key)).Nodup
    rw [List.map_reverse, List.nodup_reverse]
    exact hrev.sublist (hsub.map _)
  · show (evictFrom c.maxSize c.currentSize c.list.reverse).size
      = sumSizes (evictFrom c.maxSize c.currentSize c.list.reverse).remaining.reverse
    have hsum : sumSizes (c.list.reverse)
        = sumSizes dropped
          + sumSizes (evictFrom c.maxSize c.currentSize c.list.reverse).remaining := by
      rw [← sumSizes_append, ← h1]
    rw [h2, sumSizes_reverse]
    have hc : c.currentSize = sumSizes c.list := h.2
    rw [sumSizes_reverse] at hsum
    omega

theorem capBound_evictEntries (c : CacheService) : capBound (c.evictEntries).1 := by
  rcases evictFrom_post c.maxSize c.currentSize c.list.reverse with h | h
  · left
    exact h
  · right
    show (evictFrom c.maxSize c.currentSize c.list.reverse).remaining.reverse = []
    rw [h]
    rfl

theorem evictEntries_deletes (c : CacheService) :
    ((c.evictEntries).1).stats.deletes = c.stats.deletes := rfl

/-! ### Characterising `set` -/

theorem set_of_throw {c : CacheService} {v : Value} (hcs : calculateSize v = none)
    (now : Nat) (k : String) (ttl : Nat) :
    c.set now k v ttl = (condDelete c k, false) := by
  simp [CacheService.set, mkNode, hcs]

theorem set_of_size {c : CacheService} {v : Value} {sz : Nat}
    (hcs : calculateSize v = some sz) (now : Nat) (k : String) (ttl : Nat) :
    c.set now k v ttl
      = (if (insertNode (condDelete c k) (newNode now k v ttl sz)).maxSize
            < (insertNode (condDelete c k) (newNode now k v ttl sz)).currentSize
         then (((insertNode (condDelete c k) (newNode now k v ttl sz)).evictEntries).1, true)
         else (insertNode (condDelete c k) (newNode now k v ttl sz), true)) := by
  simp [CacheService.set, mkNode, hcs]

/-! ### Well-formedness preservation: the remaining operations -/

theorem WF_condDelete {c : CacheService} (h : CacheWF c) (k : String) :
    CacheWF (condDelete c k) := by
  unfold condDelete
  by_cases hp : (c.findNode k).isSome = true
  · rw [if_pos hp]
    exact WF_delete h k
  · rw [if_neg hp]
    exact h

theorem findNode_condDelete_none {c : CacheService} (h : c.keys.Nodup) (k : String) :
    (condDelete c k).findNode k = none := by
  unfold condDelete
  by_cases hp : (c.findNode k).isSome = true
  · rw [if_pos hp]
    exact delete_findNode_self h k
  · rw [if_neg hp]
    exact Option.not_isSome_iff_eq_none.mp (by simpa using hp)

theorem capBound_condDelete {c : CacheService} (h : capBound c) (k : String) :
    capBound (condDelete c k) := by
  unfold condDelete
  by_cases hp : (c.findNode k).isSome = true
  · rw [if_pos hp]
    unfold CacheService.delete
    cases hf : c.findNode k with
    | none => exact h
    | some n =>
      rcases h with hle | hemp
      · left
        show c.currentSize - (n.size : Int) ≤ c.maxSize
        omega
      · exfalso
        have : c.findNode k = none := by simp [CacheService.findNode, hemp]
        rw [this] at hf
        exact Option.noConfusion hf
  · rw [if_neg hp]
    exact h

theorem WF_insertNode {c : CacheService} {n : Node} (h : CacheWF c)
    (hk : c.findNode n.key = none) : CacheWF (insertNode c n) := by
  constructor
  · show ((n :: c.list).map (fun m => m.key)).Nodup
    rw [List.map_cons, List.nodup_cons]
    exact ⟨find_key_none.mp hk, h.1⟩
  · show c.currentSize + (n.size : Int) = sumSizes (n :: c.list)
    rw [sumSizes_cons, h.2]
    ring

theorem WF_set {c : CacheService} (h : CacheWF c) (now : Nat) (k : String)
    (v : Value) (ttl : Nat) : CacheWF (c.set now k v ttl).1 := by
  cases hcs : calculateSize v with
  | none =>
    rw [set_of_throw hcs]
    exact WF_condDelete h k
  | some sz =>
    rw [set_of_size hcs]
    have h2 : CacheWF (insertNode (condDelete c k) (newNode now k v ttl sz)) :=
      WF_insertNode (WF_condDelete h k) (findNode_condDelete_none h.1 k)
    by_cases hov : (insertNode (condDelete c k) (newNode now k v ttl sz)).maxSize
        < (insertNode (condDelete c k) (newNode now k v ttl sz)).currentSize
    · rw [if_pos hov]
      exact WF_evictEntries h2
    · rw [if_neg hov]
      exact h2

theorem capBound_set {c : CacheService} (h : capBound c) (now : Nat) (k : String)
    (v : Value) (ttl : Nat) : capBound (c.set now k v ttl).1 := by
  cases hcs : calculateSize v with
  | none =>
    rw [set_of_throw hcs]
    exact capBound_condDelete h k
  | some sz =>
    rw [set_of_size hcs]
    by_cases hov : (insertNode (condDelete c k) (newNode now k v ttl sz)).maxSize
        < (insertNode (condDelete c k) (newNode now k v ttl sz)).currentSize
    · rw [if_pos hov]
      exact capBound_evictEntries _
    · rw [if_neg hov]
      left
      exact Int.not_lt.mp hov

theorem capBound_setMaxSize (c : CacheService) (m : Int) :
    capBound (c.setMaxSize m) := by
  unfold CacheService.setMaxSize
  by_cases hov : ({ c with maxSize := m } : CacheService).maxSize
      < ({ c with maxSize := m } : CacheService).currentSize
  · rw [if_pos hov]
    exact capBound_evictEntries _
  · rw [if_neg hov]
    left
    exact Int.not_lt.mp hov

theorem WF_get {c : CacheService} (h : CacheWF c) (now : Nat) (k : String) :
    CacheWF (c.get now k).1 := by
  cases hf : c.findNode k with
  | none =>
    simp only [CacheService.get, hf]
    exact ⟨h.1, h.2⟩
  | some n =>
    simp only [CacheService.get, hf]
    by_cases he : isExpired now n = true
    · rw [if_pos he]
      have hd := WF_delete h k
      exact ⟨hd.1, hd.2⟩
    · rw [if_neg he]
      have hf2 : c.list.find? (fun m => m.key == k) = some n := hf
      have hkey : n.key = k := by simpa using List.find?_some hf2
      constructor
      · show ((n :: removeKey c.list k).map (fun m => m.key)).Nodup
        rw [List.map_cons, List.nodup_cons]
        refine ⟨?_, keysNodup_removeKey h.1⟩
        rw [hkey]
        exact not_mem_keys_removeKey h.1
      · show c.currentSize = sumSizes (n :: removeKey c.list k)
        rw [sumSizes_cons, sumSizes_removeKey hf2, h.2]
        ring

theorem WF_has {c : CacheService} (h : CacheWF c) (now : Nat) (k : String) :
    CacheWF (c.has now k).1 := by
  cases hf : c.findNode k with
  | none =>
    simp only [CacheService.has, hf]
    exact h
  | some n =>
    simp only [CacheService.has, hf]
    by_cases he : isExpired now n = true
    · rw [if_pos he]
      exact WF_delete h k
    · rw [if_neg he]
      exact h

theorem WF_clear {c : CacheService} : CacheWF c.clear :=
  ⟨List.nodup_nil, rfl⟩

theorem foldl_fst_preserve {α β : Type} (P : CacheService → Prop)
    (f : CacheService × β → α → CacheService × β)
    (hf : ∀ s a, P s.1 → P (f s a).1) :
    ∀ (xs : List α) (s : CacheService × β), P s.1 → P (xs.foldl f s).1 := by
  intro xs
  induction xs with
  | nil => exact fun s hs => hs
  | cons x rest ih => exact fun s hs => ih _ (hf s x hs)

theorem foldl_preserve {α : Type} (P : CacheService → Prop)
    (f : CacheService → α → CacheService)
    (hf : ∀ s a, P s → P (f s a)) :
    ∀ (xs : List α) (s : CacheService), P s → P (xs.foldl f s) := by
  intro xs
  induction xs with
  | nil => exact fun s hs => hs
  | cons x rest ih => exact fun s hs => ih _ (hf s x hs)

theorem WF_valuesStep (now : Nat) (acc : CacheService × List Value) (n : Node)
    (h : CacheWF acc.1) : CacheWF (valuesStep now acc n).1 := by
  unfold valuesStep
  by_cases he : isExpired now n = true
  · rw [if_pos he]
    exact WF_delete h n.key
  · rw [if_neg he]
    exact h

theorem WF_entriesStep (now : Nat) (acc : CacheService × List (String × Value))
    (n : Node) (h : CacheWF acc.1) : CacheWF (entriesStep now acc n).1 := by
  unfold entriesStep
  by_cases he : isExpired now n = true
  · rw [if_pos he]
    exact WF_delete h n.key
  · rw [if_neg he]
    exact h

theorem WF_pruneStep (now : Nat) (acc : CacheService × Nat) (n : Node)
    (h : CacheWF acc.1) : CacheWF (pruneStep now acc n).1 := by
  unfold pruneStep
  by_cases he : isExpired now n = true
  · rw [if_pos he]
    have hd := WF_delete h n.key
    exact ⟨hd.1, hd.2⟩
  · rw [if_neg he]
    exact h

theorem WF_deletePatternStep (p : String → Bool) (acc : CacheService × Nat)
    (k : String) (h : CacheWF acc.1) : CacheWF (deletePatternStep p acc k).1 := by
  unfold deletePatternStep
  by_cases hp : p k = true
  · rw [if_pos hp]
    exact WF_delete h k
  · rw [if_neg hp]
    exact h

theorem WF_applyOp {c : CacheService} (h : CacheWF c) (now : Nat) (op : Op) :
    CacheWF (applyOp c now op) := by
  cases op with
  | opSet k v ttl => exact WF_set h now k v _
  | opGet k => exact WF_get h now k
  | opHas k => exact WF_has h now k
  | opDelete k => exact WF_delete h k
  | opClear => exact WF_clear
  | opSetMany entries ttl =>
    exact foldl_preserve CacheWF _ (fun s kv hs => WF_set hs now kv.1 kv.2 _) entries c h
  | opGetMany ks =>
    exact foldl_fst_preserve CacheWF (getManyStep now)
      (fun s k hs => WF_get hs now k) ks (c, []) h
  | opDeleteMany ks =>
    exact foldl_fst_preserve CacheWF deleteManyStep
      (fun s k hs => WF_delete hs k) ks (c, 0) h
  | opValues =>
    exact foldl_fst_preserve CacheWF _ (WF_valuesStep now) c.list (c, []) h
  | opEntries =>
    exact foldl_fst_preserve CacheWF _ (WF_entriesStep now) c.list (c, []) h
  | opPrune =>
    exact foldl_fst_preserve CacheWF _ (WF_pruneStep now) c.list (c, 0) h
  | opSetMaxSize m =>
    show CacheWF (c.setMaxSize m)
    unfold CacheService.setMaxSize
    by_cases hov : ({ c with maxSize := m } : CacheService).maxSize
        < ({ c with maxSize := m } : CacheService).currentSize
    · rw [if_pos hov]
      exact WF_evictEntries ⟨h.1, h.2⟩
    · rw [if_neg hov]
      exact ⟨h.1, h.2⟩
  | opSetDefaultTTL t => exact ⟨h.1, h.2⟩
  | opDeletePattern p =>
    exact foldl_fst_preserve CacheWF _ (WF_deletePatternStep p)
      (c.list.map (fun n => n.key)) (c, 0) h

theorem WF_applyOps {c : CacheService} (h : CacheWF c) (ops : List (Nat × Op)) :
    CacheWF (applyOps c ops) := by
  induction ops generalizing c with
  | nil => exact h
  | cons o rest ih => exact ih (WF_applyOp h o.1 o.2)

theorem WF_init (m : Int) (t : Nat) : CacheWF (CacheService.init m t) :=
  ⟨List.nodup_nil, rfl⟩

theorem sum_over_keys_of_WF {c : CacheService} (h : CacheWF c) :
    (c.keys.map (sizeOfKey c)).sum = c.currentSize := by
  rw [h.2]
  show ((c.list.map (fun n => n.key)).map (sizeOfKey c)).sum = sumSizes c.list
  rw [List.map_map]
  unfold sumSizes
  apply congrArg List.sum
  apply List.map_congr_left
  intro n hn
  show sizeOfKey c n.key = (n.size : Int)
  unfold sizeOfKey
  rw [show c.findNode n.key = some n from find_key_self h.1 hn]

/-! ### Concrete states used by the witnesses -/

/-- A fresh cache: 1000 bytes capacity, default TTL 0 (no expiry). -/
def demoEmpty : CacheService := CacheService.init 1000 0

/-- One live entry `"a" ↦ 1` (8 bytes, never expires). -/
def demoOne : CacheService := (demoEmpty.set 0 "a" (Value.numV 1) 0).1

/-- One entry `"k" ↦ 1` stored at time 0 with a 1 ms TTL: expired at time 5. -/
def demoExpired : CacheService := (demoEmpty.set 0 "k" (Value.numV 1) 1).1

/-! ### The claims -/

/-- C6: `get(key)` returns absent (`undefined`) and increments `misses` when
the key is unknown; on a known but expired key it deletes the entry and
increments both `misses` and `expirations` (and, via `delete`, `deletes`),
returning absent; otherwise it moves the entry to the front of the recency
list, increments `hits`, and returns the stored value. -/
theorem get_spec (c : CacheService) (now : Nat) (k : String) :
    (c.findNode k = none →
      c.get now k
        = ({ c with stats := { c.stats with misses := c.stats.misses + 1 } },
           Value.undef)) ∧
    (∀ n, c.findNode k = some n → isExpired now n = true →
      (c.get now k).2 = Value.undef ∧
      (c.get now k).1.list = removeKey c.list k ∧
      (c.get now k).1.stats.misses = c.stats.misses + 1 ∧
      (c.get now k).1.stats.expirations = c.stats.expirations + 1 ∧
      (c.get now k).1.stats.deletes = c.stats.deletes + 1 ∧
      (c.get now k).1.stats.hits = c.stats.hits) ∧
    (∀ n, c.findNode k = some n → isExpired now n = false →
      (c.get now k).2 = n.value ∧
      (c.get now k).1.list = n :: removeKey c.list k ∧
      (c.get now k).1.stats.hits = c.stats.hits + 1 ∧
      (c.get now k).1.stats.misses = c.stats.misses ∧
      (c.get now k).1.stats.expirations = c.stats.expirations ∧
      (c.get now k).1.currentSize = c.currentSize) := by
  refine ⟨?_, ?_, ?_⟩
  · intro hf
    simp [CacheService.get, hf]
  · intro n hf he
    simp only [CacheService.get, hf]
    rw [if_pos he]
    simp [CacheService.delete, hf]
  · intro n hf he
    simp only [CacheService.get, hf]
    rw [if_neg (by simp [he])]
    exact ⟨rfl, rfl, rfl, rfl, rfl, rfl⟩

/-- Witness for the `get` specification: hit on a live entry. -/
theorem get_spec_witness :
    (demoOne.get 0 "a").2 = Value.numV 1 ∧ (demoOne.get 0 "a").1.stats.hits = 1 := by
  have h := (get_spec demoOne 0 "a").2.2 (newNode 0 "a" (Value.numV 1) 0 8) rfl rfl
  exact ⟨h.1, h.2.2.1.trans rfl⟩

/-- C7: on a key holding a non-expired entry, `has` returns true and leaves
the entire state unchanged — in particular the recency order and the
hits/misses counters — no matter how many times it is repeated; a single
`get` on the same state, by contrast, promotes that very entry to the front
of the recency list (a `set` on an existing key never promotes the entry: it
destroys it and constructs a fresh one, so `get` is the only operation that
moves an existing entry to most-recently-used). -/
theorem has_frame (c : CacheService) (now : Nat) (k : String) (n : Node)
    (hf : c.findNode k = some n) (he : isExpired now n = false) :
    c.has now k = (c, true) ∧
    (∀ m : Nat, Nat.iterate (fun s => (CacheService.has s now k).1) m c = c) ∧
    (c.get now k).1.list.head? = some n := by
  have h1 : c.has now k = (c, true) := by
    simp only [CacheService.has, hf]
    rw [if_neg (by simp [he])]
  refine ⟨h1, ?_, ?_⟩
  · intro m
    induction m with
    | zero => rfl
    | succ m ih =>
      rw [Function.iterate_succ_apply]
      simp only [h1]
      exact ih
  · simp only [CacheService.get, hf]
    rw [if_neg (by simp [he])]
    rfl

/-- Witness for the `has` frame property on a live entry. -/
theorem has_frame_witness :
    demoOne.has 0 "a" = (demoOne, true) ∧
    (demoOne.get 0 "a").1.list.head? = some (newNode 0 "a" (Value.numV 1) 0 8) := by
  have h := has_frame demoOne 0 "a" (newNode 0 "a" (Value.numV 1) 0 8) rfl rfl
  exact ⟨h.1, h.2.2⟩

/-- C8 counterexample: on an expired key, `has` does delete the entry and
return false, but — contrary to the claim — it does not increment
`expirations` (the counter stays 0), whereas the same access through `get`
does increment it to 1. The removal shows up only in `deletes`. -/
theorem has_expired_no_expiration_count :
    (demoExpired.has 5 "k").2 = false ∧
    ((demoExpired.has 5 "k").1).findNode "k" = none ∧
    (demoExpired.has 5 "k").1.stats.deletes = 1 ∧
    (demoExpired.has 5 "k").1.stats.expirations = 0 ∧
    (demoExpired.get 5 "k").1.stats.expirations = 1 :=
  ⟨rfl, rfl, rfl, rfl, rfl⟩

/-- C8 (amended): on an expired key `has` performs the lazy delete — the
entry is removed and `deletes` is incremented — and returns false, but
unlike `get` it increments neither `hits`, `misses` nor `expirations`. -/
theorem has_expired_spec (c : CacheService) (now : Nat) (k : String) (n : Node)
    (hnd : c.keys.Nodup) (hf : c.findNode k = some n)
    (he : isExpired now n = true) :
    c.has now k = ((c.delete k).1, false) ∧
    ((c.has now k).1).findNode k = none ∧
    (c.has now k).1.stats.deletes = c.stats.deletes + 1 ∧
    (c.has now k).1.stats.expirations = c.stats.expirations ∧
    (c.has now k).1.stats.hits = c.stats.hits ∧
    (c.has now k).1.stats.misses = c.stats.misses := by
  have h1 : c.has now k = ((c.delete k).1, false) := by
    simp only [CacheService.has, hf]
    rw [if_pos he]
  refine ⟨h1, ?_, ?_, ?_, ?_, ?_⟩
  · rw [h1]
    exact delete_findNode_self hnd k
  all_goals rw [h1]; simp [CacheService.delete, hf]

/-- Witness for the amended `has`-on-expired specification. -/
theorem has_expired_spec_witness :
    (demoExpired.has 5 "k").1.stats.deletes = 1 ∧
    (demoExpired.has 5 "k").1.stats.expirations = 0 := by
  have h := has_expired_spec demoExpired 5 "k" (newNode 0 "k" (Value.numV 1) 1 8)
    (by decide) rfl rfl
  exact ⟨h.2.2.1.trans rfl, h.2.2.2.1.trans rfl⟩

/-- C5: during an eviction loop, a registered observer is invoked exactly
once per evicted entry — the invocation trace is precisely the evicted
entries' (key, value) pairs in eviction order — and whether any invocation
throws changes nothing: the try/catch sits inside the loop body, so the
exception never propagates and the remaining evictions still occur,
producing the identical final state and trace. -/
theorem observer_isolation (cb : String → Value → Bool) (m s : Int)
    (l : List Node) :
    evictFromCb cb m s l = evictFrom m s l ∧
    ∃ dropped, l = dropped ++ (evictFrom m s l).remaining ∧
      (evictFrom m s l).trace = dropped.map (fun n => (n.key, n.value)) := by
  obtain ⟨dropped, h1, h2, h3⟩ := evictFrom_spec m s l
  exact ⟨evictFromCb_eq cb m s l, dropped, h1, h3⟩

/-- C3: after any sequence of public operations on a freshly constructed
cache, `getStats().currentSize` equals the exact sum of the stored entries'
approximate sizes over the keys currently returned by `keys()`. -/
theorem size_invariant_sequences (m : Int) (t : Nat) (ops : List (Nat × Op)) :
    ((applyOps (CacheService.init m t) ops).getStats).currentSize
      = (((applyOps (CacheService.init m t) ops).keys).map
          (sizeOfKey (applyOps (CacheService.init m t) ops))).sum :=
  (sum_over_keys_of_WF (WF_applyOps (WF_init m t) ops)).symm

/-- C4: the eviction loop removes least-recently-used tail entries, each
removal decreasing `currentSize` by that entry's size and incrementing
`evictions` once, while over capacity and non-empty; the loop is a total
structural recursion, so it terminates even in the degenerate
single-oversized-entry case (ending empty and over capacity, which is
tolerated). Consequently the capacity bound `currentSize ≤ maxSize ∨ empty`
holds after the loop, and holds after every `set` and every `setMaxSize`
call (for a failed `set` this relies on the bound holding beforehand, since
the catch path only deletes). -/
theorem eviction_restores_capacity (c : CacheService) (now : Nat) (k : String)
    (v : Value) (ttl : Nat) (m : Int) (h : capBound c) :
    capBound (c.evictEntries).1 ∧
    (∃ dropped, c.list.reverse
        = dropped ++ (evictFrom c.maxSize c.currentSize c.list.reverse).remaining ∧
      ((c.evictEntries).1).currentSize = c.currentSize - sumSizes dropped ∧
      ((c.evictEntries).1).stats.evictions = c.stats.evictions + dropped.length) ∧
    capBound (c.set now k v ttl).1 ∧
    capBound (c.setMaxSize m) := by
  refine ⟨capBound_evictEntries c, ?_, capBound_set h now k v ttl,
    capBound_setMaxSize c m⟩
  obtain ⟨dropped, h1, h2, h3⟩ := evictFrom_spec c.maxSize c.currentSize c.list.reverse
  refine ⟨dropped, h1, h2, ?_⟩
  show c.stats.evictions
      + (evictFrom c.maxSize c.currentSize c.list.reverse).trace.length
    = c.stats.evictions + dropped.length
  rw [h3, List.length_map]

/-- Witness for the capacity bound: inserting past capacity and shrinking
the capacity both restore the bound. -/
theorem eviction_restores_capacity_witness :
    capBound ((demoOne.set 0 "b" (Value.strV "xy") 0).1) ∧
    capBound (demoOne.setMaxSize 4) := by
  have h := eviction_restores_capacity demoOne 0 "b" (Value.strV "xy") 0 4
    (Or.inl (by decide))
  exact ⟨h.2.2.1, h.2.2.2⟩

/-- C9 counterexample: `clear` also removes entries on a path that leaves the
`deletes` counter unchanged, and it is not a capacity eviction (`evictions`
is unchanged as well) — so capacity eviction is not the *only* removal path
that leaves `deletes` unchanged. -/
theorem clear_leaves_deletes_unchanged :
    demoOne.list.length = 1 ∧ (demoOne.clear).list = [] ∧
    (demoOne.clear).stats.deletes = demoOne.stats.deletes ∧
    (demoOne.clear).stats.evictions = demoOne.stats.evictions :=
  ⟨rfl, rfl, rfl, rfl⟩

/-- C9 (amended): every removal routed through `delete` increments `deletes`
by one per removed entry — explicit delete, lazy expiry discovered by `get`,
`has` and the `values`/`entries` scans, active prune, pattern deletion, and
the replacement of an existing key at the start of `set` — while capacity
eviction and `clear` are the removal paths that leave the counter
unchanged. -/
theorem delete_counter_paths (c : CacheService) (now now2 : Nat) (k : String)
    (n : Node) (v : Value) (sz : Nat) (ttl : Nat) (p : String → Bool)
    (hf : c.findNode k = some n) (he : isExpired now n = true)
    (hcs : calculateSize v = some sz) (hp : p k = true) :
    ((c.delete k).2 = true ∧ (c.delete k).1.stats.deletes = c.stats.deletes + 1) ∧
    (c.get now k).1.stats.deletes = c.stats.deletes + 1 ∧
    (c.has now k).1.stats.deletes = c.stats.deletes + 1 ∧
    (valuesStep now (c, ([] : List Value)) n).1.stats.deletes
      = c.stats.deletes + 1 ∧
    (entriesStep now (c, ([] : List (String × Value))) n).1.stats.deletes
      = c.stats.deletes + 1 ∧
    (pruneStep now (c, 0) n).1.stats.deletes = c.stats.deletes + 1 ∧
    (deletePatternStep p (c, 0) k).1.stats.deletes = c.stats.deletes + 1 ∧
    ((c.set now2 k v ttl).1).stats.deletes = c.stats.deletes + 1 ∧
    ((c.evictEntries).1).stats.deletes = c.stats.deletes ∧
    (c.clear).stats.deletes = c.stats.deletes := by
  have hkey : n.key = k := by
    have hf2 : c.list.find? (fun m => m.key == k) = some n := hf
    simpa using List.find?_some hf2
  have hdel : (c.delete k).1.stats.deletes = c.stats.deletes + 1 := by
    simp [CacheService.delete, hf]
  refine ⟨⟨?_, hdel⟩, ?_, ?_, ?_, ?_, ?_, ?_, ?_, rfl, rfl⟩
  · simp [CacheService.delete, hf]
  · simp only [CacheService.get, hf]
    rw [if_pos he]
    simpa using hdel
  · simp only [CacheService.has, hf]
    rw [if_pos he]
    exact hdel
  · unfold valuesStep
    rw [if_pos he]
    rw [hkey]
    exact hdel
  · unfold entriesStep
    rw [if_pos he]
    rw [hkey]
    exact hdel
  · unfold pruneStep
    rw [if_pos he]
    rw [hkey]
    simpa using hdel
  · unfold deletePatternStep
    rw [if_pos hp]
    exact hdel
  · rw [set_of_size hcs]
    have hcd : (condDelete c k).stats.deletes = c.stats.deletes + 1 := by
      unfold condDelete
      rw [if_pos (by rw [hf]; rfl)]
      exact hdel
    by_cases hov : (insertNode (condDelete c k) (newNode now2 k v ttl sz)).maxSize
        < (insertNode (condDelete c k) (newNode now2 k v ttl sz)).currentSize
    · rw [if_pos hov]
      exact hcd
    · rw [if_neg hov]
      exact hcd

/-- Witness for the delete-counter accounting on concrete expired state. -/
theorem delete_counter_paths_witness :
    (demoExpired.delete "k").2 = true ∧
    (demoExpired.get 5 "k").1.stats.deletes = 1 ∧
    (demoExpired.clear).stats.deletes = 0 := by
  have h := delete_counter_paths demoExpired 5 0 "k"
    (newNode 0 "k" (Value.numV 1) 1 8) (Value.numV 2) 8 0 (fun s => s == "k")
    rfl rfl rfl rfl
  exact ⟨h.1.1, h.2.1.trans rfl, h.2.2.2.2.2.2.2.2.2.trans rfl⟩

theorem condDelete_size_le (c : CacheService) (k : String) :
    (condDelete c k).currentSize ≤ c.currentSize
      ∧ (condDelete c k).maxSize = c.maxSize := by
  unfold condDelete
  by_cases hp : (c.findNode k).isSome = true
  · rw [if_pos hp]
    unfold CacheService.delete
    cases hf : c.findNode k with
    | none => exact ⟨le_refl _, rfl⟩
    | some n =>
      constructor
      · show c.currentSize - (n.size : Int) ≤ c.currentSize
        omega
      · rfl
  · rw [if_neg hp]
    exact ⟨le_refl _, rfl⟩

/-- C1 counterexample: with a batch whose middle value throws during size
estimation, `setMany` neither stops nor returns false: the failing entry is
skipped, the subsequent entry is still committed, the prior entry remains,
and the call returns true (the claim predicted false with the subsequent
entry absent). -/
theorem setMany_does_not_stop :
    (demoEmpty.setMany 0
        [("a", Value.numV 1), ("b", Value.throwing), ("c", Value.numV 2)] 0).2
      = true ∧
    ((demoEmpty.setMany 0
        [("a", Value.numV 1), ("b", Value.throwing), ("c", Value.numV 2)] 0).1.findNode
        "a").isSome = true ∧
    (demoEmpty.setMany 0
        [("a", Value.numV 1), ("b", Value.throwing), ("c", Value.numV 2)] 0).1.findNode
        "b" = none ∧
    ((demoEmpty.setMany 0
        [("a", Value.numV 1), ("b", Value.throwing), ("c", Value.numV 2)] 0).1.findNode
        "c").isSome = true :=
  ⟨rfl, rfl, rfl, rfl⟩

/-- C1 (amended): `setMany` applies the entries one at a time via `set`,
ignoring each individual result, and returns true for any materialised entry
list. When one entry's `set` throws internally, `set` itself catches the
exception and returns false, that entry is absent from the cache at that
point, and the batch continues with the subsequent entries — prior entries
remain committed and subsequent entries are applied normally. -/
theorem setMany_best_effort (c : CacheService) (now : Nat) (ttl : Nat)
    (pre post : List (String × Value)) (k : String) (v : Value)
    (hwf : CacheWF c) (hcs : calculateSize v = none) :
    (c.setMany now (pre ++ (k, v) :: post) ttl).2 = true ∧
    (c.setMany now (pre ++ (k, v) :: post) ttl).1
      = (((((c.setMany now pre ttl).1).set now k v ttl).1).setMany now post ttl).1 ∧
    (((c.setMany now pre ttl).1).set now k v ttl).2 = false ∧
    ((((c.setMany now pre ttl).1).set now k v ttl).1).findNode k = none := by
  have hwfpre : CacheWF ((c.setMany now pre ttl).1) :=
    foldl_preserve CacheWF _ (fun s kv hs => WF_set hs now kv.1 kv.2 ttl) pre c hwf
  refine ⟨rfl, ?_, ?_, ?_⟩
  · show (pre ++ (k, v) :: post).foldl
        (fun acc kv => (acc.set now kv.1 kv.2 ttl).1) c
      = post.foldl (fun acc kv => (acc.set now kv.1 kv.2 ttl).1)
          (((pre.foldl (fun acc kv => (acc.set now kv.1 kv.2 ttl).1) c).set
              now k v ttl).1)
    rw [List.foldl_append, List.foldl_cons]
  · rw [set_of_throw hcs]
  · rw [set_of_throw hcs]
    exact findNode_condDelete_none hwfpre.1 k

/-- Witness for best-effort `setMany` on a concrete three-entry batch. -/
theorem setMany_best_effort_witness :
    (demoEmpty.setMany 0
        [("a", Value.numV 1), ("b", Value.throwing), ("c", Value.numV 2)] 0).2
      = true ∧
    ((((demoEmpty.setMany 0 [("a", Value.numV 1)] 0).1).set 0 "b"
        Value.throwing 0).2 = false) := by
  have h := setMany_best_effort demoEmpty 0 0 [("a", Value.numV 1)]
    [("c", Value.numV 2)] "b" Value.throwing ⟨List.nodup_nil, rfl⟩ rfl
  exact ⟨h.1, h.2.2.1⟩

/-- C2 counterexample: `set` on an existing key with a value whose size
estimation throws returns false, but the cache state is *not* unchanged: the
prior entry under the key (present with 8 counted bytes beforehand) has been
removed by the opening delete, leaving the key absent and its size
uncounted. -/
theorem set_throw_removes_prior :
    demoOne.findNode "a" = some (newNode 0 "a" (Value.numV 1) 0 8) ∧
    demoOne.currentSize = 8 ∧
    (demoOne.set 0 "a" Value.throwing 0).2 = false ∧
    (demoOne.set 0 "a" Value.throwing 0).1.findNode "a" = none ∧
    (demoOne.set 0 "a" Value.throwing 0).1.currentSize = 0 :=
  ⟨rfl, rfl, rfl, rfl, rfl⟩

/-- C2 (amended): `set` returns false exactly when size estimation of the
caller-supplied value throws during entry construction, and in that case no
new entry is linked; but the state equals the result of the opening
conditional delete, so when the key already held an entry that prior entry
has been removed (and its size uncounted) rather than left in place. -/
theorem set_throw_spec (c : CacheService) (now : Nat) (k : String) (v : Value)
    (ttl : Nat) (hnd : c.keys.Nodup) :
    ((c.set now k v ttl).2 = false ↔ calculateSize v = none) ∧
    (calculateSize v = none →
      (c.set now k v ttl).1 = condDelete c k ∧
      ((c.set now k v ttl).1).findNode k = none) := by
  constructor
  · constructor
    · intro hret
      cases hcs : calculateSize v with
      | none => rfl
      | some sz =>
        exfalso
        rw [set_of_size hcs] at hret
        by_cases hov : (insertNode (condDelete c k) (newNode now k v ttl sz)).maxSize
            < (insertNode (condDelete c k) (newNode now k v ttl sz)).currentSize
        · rw [if_pos hov] at hret
          exact Bool.noConfusion hret
        · rw [if_neg hov] at hret
          exact Bool.noConfusion hret
    · intro hcs
      rw [set_of_throw hcs]
  · intro hcs
    rw [set_of_throw hcs]
    exact ⟨rfl, findNode_condDelete_none hnd k⟩

/-- Witness for the amended `set`-throw specification on a concrete state. -/
theorem set_throw_spec_witness :
    (demoOne.set 0 "a" Value.throwing 0).2 = false ∧
    (demoOne.set 0 "a" Value.throwing 0).1.findNode "a" = none := by
  have h := set_throw_spec demoOne 0 "a" Value.throwing 0 (by decide)
  exact ⟨h.1.mpr rfl, (h.2 rfl).2⟩

/-- C10: a stored `undefined` is indistinguishable from absence at the read
interface: `set(key, undefined)` succeeds (size 0, no eviction under
capacity), `get` on it returns `undefined` while still counting a hit and
promoting the entry to the front of the recency list, and `getMany` omits
the key from its result object exactly as it omits a missing key. -/
theorem undefined_indistinguishable (c : CacheService) (now now2 : Nat)
    (k k2 : String) (hcap : c.currentSize ≤ c.maxSize)
    (habs : c.findNode k2 = none) :
    (c.set now k Value.undef 0).2 = true ∧
    (((c.set now k Value.undef 0).1).get now2 k).2 = Value.undef ∧
    (((c.set now k Value.undef 0).1).get now2 k).1.stats.hits
      = ((c.set now k Value.undef 0).1).stats.hits + 1 ∧
    (((c.set now k Value.undef 0).1).get now2 k).1.list.head?
      = some (newNode now k Value.undef 0 0) ∧
    (((c.set now k Value.undef 0).1).getMany now2 [k]).2 = [] ∧
    (c.getMany now2 [k2]).2 = [] := by
  have hcs : calculateSize Value.undef = some 0 := rfl
  have hle := (condDelete_size_le c k).1
  have hmx := (condDelete_size_le c k).2
  have hov : ¬ (insertNode (condDelete c k) (newNode now k Value.undef 0 0)).maxSize
      < (insertNode (condDelete c k) (newNode now k Value.undef 0 0)).currentSize := by
    show ¬ (condDelete c k).maxSize
        < (condDelete c k).currentSize + (((newNode now k Value.undef 0 0).size : Nat) : Int)
    have hsz : (newNode now k Value.undef 0 0).size = 0 := rfl
    rw [hsz, hmx]
    omega
  have hset : c.set now k Value.undef 0
      = (insertNode (condDelete c k) (newNode now k Value.undef 0 0), true) := by
    rw [set_of_size hcs]
    rw [if_neg hov]
  have hfind : (insertNode (condDelete c k) (newNode now k Value.undef 0 0)).findNode k
      = some (newNode now k Value.undef 0 0) := by
    show List.find? (fun n => n.key == k)
        (newNode now k Value.undef 0 0 :: (condDelete c k).list)
      = some (newNode now k Value.undef 0 0)
    simp [List.find?, newNode]
  have hexp : isExpired now2 (newNode now k Value.undef 0 0) = false := by
    simp [isExpired, newNode]
  have hget : ((insertNode (condDelete c k) (newNode now k Value.undef 0 0)).get now2 k)
      = ({ insertNode (condDelete c k) (newNode now k Value.undef 0 0) with
            list := newNode now k Value.undef 0 0
              :: removeKey (insertNode (condDelete c k)
                    (newNode now k Value.undef 0 0)).list k,
            stats := { (insertNode (condDelete c k) (newNode now k Value.undef 0 0)).stats
              with hits := (insertNode (condDelete c k)
                  (newNode now k Value.undef 0 0)).stats.hits + 1 } },
         (newNode now k Value.undef 0 0).value) := by
    simp only [CacheService.get, hfind]
    rw [if_neg (by simp [hexp])]
  refine ⟨by rw [hset], ?_, ?_, ?_, ?_, ?_⟩
  · rw [hset]
    show ((insertNode (condDelete c k) (newNode now k Value.undef 0 0)).get now2 k).2
      = Value.undef
    rw [hget]
    rfl
  · rw [hset]
    show ((insertNode (condDelete c k) (newNode now k Value.undef 0 0)).get now2 k).1.stats.hits
      = (insertNode (condDelete c k) (newNode now k Value.undef 0 0)).stats.hits + 1
    rw [hget]
  · rw [hset]
    show ((insertNode (condDelete c k) (newNode now k Value.undef 0 0)).get now2 k).1.list.head?
      = some (newNode now k Value.undef 0 0)
    rw [hget]
    rfl
  · rw [hset]
    show ((insertNode (condDelete c k) (newNode now k Value.undef 0 0)).getMany now2 [k]).2
      = []
    have hval : ((insertNode (condDelete c k) (newNode now k Value.undef 0 0)).get now2 k).2
        = Value.undef := by
      rw [hget]
      rfl
    simp [CacheService.getMany, getManyStep, hval, Value.isUndef]
  · simp [CacheService.getMany, getManyStep, CacheService.get, habs, Value.isUndef]

/-- Witness for the `undefined`-storage property at a concrete input. -/
theorem undefined_indistinguishable_witness :
    ((demoEmpty.set 0 "u" Value.undef 0).1.getMany 0 ["u"]).2 = [] ∧
    (demoEmpty.getMany 0 ["z"]).2 = [] := by
  have h := undefined_indistinguishable demoEmpty 0 0 "u" "z" (by decide) rfl
  exact ⟨h.2.2.2.2.1, h.2.2.2.2.2⟩
